import Mathlib

/-!
Verification development for the cashflow ledger processor (src/main.go).

The Go program is shallowly embedded: each Go function becomes a Lean
definition of the same name (where Lean allows it), `float64` amounts are
modelled as `ℚ`, Go slices as `List`, Go maps as insertion-ordered
association lists (only their key → value behaviour is observed by the
program logic under verification, except where noted), and `time.Time`
calendar dates as a `GDate` record whose zero value mirrors Go's zero
`time.Time` (January 1, year 1).  The command-line globals read by
`applyFilters` are gathered into an explicit `FilterConfig` record.
-/

namespace Cashflow

/-- Calendar date, modelling the date part of Go's `time.Time`.
Go's zero `time.Time` is year 1, January 1. -/
structure GDate where
  year : ℕ
  month : ℕ
  day : ℕ
deriving DecidableEq, Repr

/-- The zero value of `time.Time`, as a calendar date. -/
def dateZero : GDate := ⟨1, 1, 1⟩

/-- `t.Before(u)` on dates: lexicographic year/month/day comparison. -/
def beforeD (a b : GDate) : Bool :=
  if a.year ≠ b.year then decide (a.year < b.year)
  else if a.month ≠ b.month then decide (a.month < b.month)
  else decide (a.day < b.day)

/-- The `Transaction` struct of src/main.go.  The Go field `Type` is named
`TType` here because `Type` is a Lean keyword; `Amount` uses `ℚ` for
`float64`; `ProjectedAmount *float64` becomes `Option ℚ`. -/
structure Transaction where
  Date : GDate
  TType : String
  Amount : ℚ
  Description : String
  Tags : List String
  ProjectedAmount : Option ℚ
deriving DecidableEq, Repr

/-! ### Character/string helpers (ASCII models of the Go stdlib calls) -/

/-- Whitespace as matched by Go's regexp `\s` and trimmed by
`strings.TrimSpace` (ASCII subset: space, tab, newline, carriage return,
form feed). -/
def isSpaceChar (c : Char) : Bool :=
  c = ' ' || c = '\t' || c = '\n' || c = '\r' || c = '\x0c'

/-- Characters matched by the regexp class `[\d.]`. -/
def isNumDot (c : Char) : Bool := c.isDigit || c = '.'

/-- `strings.TrimSpace` on a character list. -/
def trimChars (cs : List Char) : List Char :=
  ((cs.dropWhile isSpaceChar).reverse.dropWhile isSpaceChar).reverse

/-- `strings.ToLower` (ASCII model), on a string. -/
def lowerStr (s : String) : String := String.mk (s.data.map Char.toLower)

/-- `strings.TrimSpace`, on a string. -/
def trimStr (s : String) : String := String.mk (trimChars s.data)

/-- `strings.Split(s, ",")` on a character list: split at every comma;
splitting the empty list yields one empty group, as in Go. -/
def splitComma : List Char → List (List Char)
  | [] => [[]]
  | c :: rest =>
    if c = ',' then [] :: splitComma rest
    else
      match splitComma rest with
      | g :: gs => (c :: g) :: gs
      | [] => [[c]]

/-- `strings.SplitN(entry, "=", 2)`: split at the first `=`; `none` when no
`=` occurs (the `len(parts) != 2` case in Go). -/
def splitFirstEq : List Char → Option (List Char × List Char)
  | [] => none
  | c :: rest =>
    if c = '=' then some ([], rest)
    else (splitFirstEq rest).map (fun p => (c :: p.1, p.2))

/-- Value of a decimal digit character. -/
def digitVal (c : Char) : ℕ := c.toNat - 48

/-- Natural number denoted by a list of decimal digits. -/
def digitsToNat (ds : List Char) : ℕ := ds.foldl (fun n c => 10 * n + digitVal c) 0

/-- `strconv.ParseFloat` restricted to the strings the program feeds it
from the `[\d.]+` capture groups: an unsigned decimal with at most one
point and at least one digit (exponent/hex/inf forms never arise there). -/
def parseMagnitude (cs : List Char) : Option ℚ :=
  let ip := cs.takeWhile Char.isDigit
  match cs.drop ip.length with
  | [] => if ip.isEmpty then none else some (digitsToNat ip)
  | '.' :: fp =>
    if fp.all Char.isDigit && !(ip.isEmpty && fp.isEmpty) then
      some ((digitsToNat ip : ℚ) + (digitsToNat fp : ℚ) / ((10 : ℚ) ^ fp.length))
    else none
  | _ => none

/-- `strconv.ParseFloat` for the `--adjust` deltas: optional sign followed
by a decimal mantissa (the decimal subset; exponents never arise in the
verified properties). -/
def parseGoFloat (cs : List Char) : Option ℚ :=
  match cs with
  | '-' :: r => (parseMagnitude r).map (fun q => -q)
  | '+' :: r => parseMagnitude r
  | _ => parseMagnitude cs

/-! ### Tag matching helpers (src/main.go `hasTag`, `hasAnyTag`) -/

/-- `strings.EqualFold` (ASCII model). -/
def eqFoldB (a b : String) : Bool := lowerStr a == lowerStr b

/-- `hasTag` of src/main.go: some tag of the transaction equals `tag`
case-insensitively. -/
def hasTag (txn : Transaction) (tag : String) : Bool :=
  txn.Tags.any (fun t => eqFoldB t tag)

/-- `hasAnyTag` of src/main.go: some tag of the transaction, lowercased,
is in the removal set. -/
def hasAnyTag (txn : Transaction) (tagSet : List String) : Bool :=
  txn.Tags.any (fun t => tagSet.contains (lowerStr t))

/-- `parseRemovals` of src/main.go: comma-split, lowercase, trim, drop
empties.  The Go `map[string]bool` is modelled as the list of its keys
(only membership is ever observed). -/
def parseRemovals (s : String) : List String :=
  (((splitComma s.data).map (fun g => trimChars (g.map Char.toLower))).filter
    (fun g => !g.isEmpty)).map (fun g => String.mk g)

/-! ### Filter engine (src/main.go `applyFilters`) -/

/-- The command-line globals consumed by `applyFilters`.  `fromD`/`toD`
hold the already-parsed `--from`/`--to` dates (Go keeps the zero
`time.Time` when the flag is unset; an unparseable flag aborts the process
before filtering and is not modelled). -/
structure FilterConfig where
  filterTag : String
  filterType : String
  fromD : GDate
  toD : GDate
  removeTags : String
deriving Repr

/-- One iteration of the `applyFilters` loop: `true` iff the transaction
survives every `continue` guard, in the source's order. -/
def keepTxn (cfg : FilterConfig) (removeSet : List String) (txn : Transaction) : Bool :=
  if hasAnyTag txn removeSet then false
  else if cfg.filterTag ≠ "" ∧ hasTag txn cfg.filterTag = false then false
  else if cfg.filterType ≠ "" ∧ eqFoldB txn.TType cfg.filterType = false then false
  else if cfg.fromD ≠ dateZero ∧ beforeD txn.Date cfg.fromD = true then false
  else if cfg.toD ≠ dateZero ∧ beforeD cfg.toD txn.Date = true then false
  else true

/-- `applyFilters` of src/main.go: parse the removal set once, then keep
the transactions passing all guards, in order. -/
def applyFilters (cfg : FilterConfig) (transactions : List Transaction) : List Transaction :=
  transactions.filter (keepTxn cfg (parseRemovals cfg.removeTags))

/-- A `FilterConfig` with every flag unset (the flag defaults). -/
def emptyConfig : FilterConfig := ⟨"", "", dateZero, dateZero, ""⟩

/-! ### Projection builder (src/main.go `buildProjection` and helpers) -/

/-- `signum` of src/main.go: `-1` for negative, else `1` (also for 0). -/
def signum (v : ℚ) : Int := if v < 0 then -1 else 1

/-- Lookup in the adjustment map (`adjustMap[tag]`). -/
def lookupA (m : List (String × ℚ)) (k : String) : Option ℚ :=
  match m with
  | [] => none
  | (k', v) :: r => if k' = k then some v else lookupA r k

/-- Go map assignment `out[k] = v`: replace the binding if present, else
append (insertion-ordered determinisation of the Go map). -/
def setA (m : List (String × ℚ)) (k : String) (v : ℚ) : List (String × ℚ) :=
  match m with
  | [] => [(k, v)]
  | (k', v') :: r => if k' = k then (k, v) :: r else (k', v') :: setA r k v

/-- `parseAdjustments` of src/main.go: comma-split entries, skip blank
entries, split each at the first `=`, skip entries whose value fails to
parse; later duplicate keys overwrite earlier ones. -/
def parseAdjustments (s : String) : List (String × ℚ) :=
  (splitComma s.data).foldl
    (fun out entry =>
      if (trimChars entry).isEmpty then out
      else
        match splitFirstEq entry with
        | none => out
        | some (k, v) =>
          match parseGoFloat v with
          | some q => setA out (String.mk (trimChars k)) q
          | none => out)
    []

/-- The tag-adjustment scan of `buildProjection`: walk the tags in written
order; on the first tag present in the map multiply by `(1 + adj)` and
stop (the `break`); otherwise leave the amount unchanged. -/
def adjustScan (m : List (String × ℚ)) : List String → ℚ → ℚ
  | [], a => a
  | tg :: rest, a =>
    match lookupA m tg with
    | some adj => a * (1 + adj)
    | none => adjustScan m rest a

/-- The per-transaction body of the `buildProjection` loop: copy the
transaction; an inline projected amount overrides (sign taken from the
original via `signum`), else the first matching tag adjustment applies. -/
def projectTxn (m : List (String × ℚ)) (txn : Transaction) : Transaction :=
  match txn.ProjectedAmount with
  | some p => { txn with Amount := (signum txn.Amount : ℚ) * p }
  | none => { txn with Amount := adjustScan m txn.Tags txn.Amount }

/-- The `Projection` struct of src/main.go. -/
structure Projection where
  Original : List Transaction
  Projected : List Transaction
  AdjustMap : List (String × ℚ)

/-- `buildProjection` of src/main.go: the original list is returned as-is;
the projected list maps `projectTxn` over it (the loop appends one
projected copy per original transaction). -/
def buildProjection (original : List Transaction) (adjust : String) : Projection :=
  let m := parseAdjustments adjust
  { Original := original
    Projected := original.map (projectTxn m)
    AdjustMap := m }

/-- The `main` pipeline around the projection: filters (including
`--remove`) are applied first, and `buildProjection` receives the already
filtered list (src/main.go lines 56-59). -/
def pipelineProjection (cfg : FilterConfig) (adjust : String)
    (transactions : List Transaction) : Projection :=
  buildProjection (applyFilters cfg transactions) adjust

/-- `totalAmounts` of src/main.go: (income sum, expense sum), where an
amount ≥ 0 counts as income and a negative amount as (negative) expense. -/
def totalAmounts (transactions : List Transaction) : ℚ × ℚ :=
  transactions.foldl
    (fun p t => if 0 ≤ t.Amount then (p.1 + t.Amount, p.2) else (p.1, p.2 + t.Amount))
    (0, 0)

/-! ### Frame lemmas about `projectTxn` -/

/-- Relation between an original transaction and its projected copy: every
field except `Amount` agrees. -/
def agreesExceptAmount (o p : Transaction) : Prop :=
  p.Date = o.Date ∧ p.TType = o.TType ∧ p.Description = o.Description ∧
  p.Tags = o.Tags ∧ p.ProjectedAmount = o.ProjectedAmount

theorem projectTxn_agrees (m : List (String × ℚ)) (txn : Transaction) :
    agreesExceptAmount txn (projectTxn m txn) := by
  unfold projectTxn agreesExceptAmount
  cases h : txn.ProjectedAmount <;> simp

theorem projectTxn_Tags (m : List (String × ℚ)) (txn : Transaction) :
    (projectTxn m txn).Tags = txn.Tags := by
  unfold projectTxn
  cases h : txn.ProjectedAmount <;> rfl

theorem projectTxn_TType (m : List (String × ℚ)) (txn : Transaction) :
    (projectTxn m txn).TType = txn.TType := by
  unfold projectTxn
  cases h : txn.ProjectedAmount <;> rfl

theorem hasAnyTag_projectTxn (m : List (String × ℚ)) (txn : Transaction)
    (tagSet : List String) :
    hasAnyTag (projectTxn m txn) tagSet = hasAnyTag txn tagSet := by
  unfold hasAnyTag
  rw [projectTxn_Tags]

/-! ### Lemmas about the adjustment scan -/

theorem adjustScan_of_no_match (m : List (String × ℚ)) :
    ∀ (tags : List String) (a : ℚ), (∀ tg ∈ tags, lookupA m tg = none) →
      adjustScan m tags a = a := by
  intro tags
  induction tags with
  | nil => intro a _; rfl
  | cons t rest ih =>
    intro a h
    have ht : lookupA m t = none := h t (by simp)
    simp only [adjustScan, ht]
    exact ih a (fun tg htg => h tg (by simp [htg]))

theorem adjustScan_first_match (m : List (String × ℚ)) :
    ∀ (pre : List String) (tg : String) (rest : List String) (δ a : ℚ),
      (∀ t' ∈ pre, lookupA m t' = none) → lookupA m tg = some δ →
      adjustScan m (pre ++ tg :: rest) a = a * (1 + δ) := by
  intro pre
  induction pre with
  | nil =>
    intro tg rest δ a _ htg
    simp only [List.nil_append, adjustScan, htg]
  | cons p ps ih =>
    intro tg rest δ a hpre htg
    have hp : lookupA m p = none := hpre p (by simp)
    simp only [List.cons_append, adjustScan, hp]
    exact ih tg rest δ a (fun t' ht' => hpre t' (by simp [ht'])) htg

/-! ### Claim theorems: projection builder -/

/-- C10: `buildProjection` returns the input list itself, unmodified, as
`Original`, and a `Projected` list of the same length and order whose
`i`-th element agrees with the `i`-th original on every field except
possibly `Amount` (so the projection builder never drops a
transaction). -/
theorem buildProjection_frame (ts : List Transaction) (adjust : String) :
    (buildProjection ts adjust).Original = ts ∧
    List.Forall₂ agreesExceptAmount ts (buildProjection ts adjust).Projected := by
  refine ⟨rfl, ?_⟩
  show List.Forall₂ agreesExceptAmount ts (ts.map (projectTxn (parseAdjustments adjust)))
  rw [List.forall₂_map_right_iff]
  exact List.forall₂_same.mpr (fun x _ => projectTxn_agrees _ x)

/-- C9: filtering with every filter field unset (no tag, no type, no
from/to date, no removal) returns the input sequence unchanged. -/
theorem applyFilters_empty_noop (ts : List Transaction) :
    applyFilters emptyConfig ts = ts := by
  unfold applyFilters
  apply List.filter_eq_self.mpr
  intro t _
  have hrem : parseRemovals emptyConfig.removeTags = [] := rfl
  rw [hrem]
  simp [keepTxn, emptyConfig, hasAnyTag]

/-- C4: for a transaction with no inline projected amount, the projection
scans the tags in written order; with no tag in the adjustment map the
amount is unchanged, and when the tags split as `pre ++ tg :: rest` with
no tag of `pre` in the map and `tg` mapped to `δ`, the amount is
multiplied by `(1 + δ)` once — the tags in `rest` never contribute
(first-tag-wins, never cumulative). -/
theorem projection_first_tag_wins (s : String) (ts : List Transaction)
    (m : List (String × ℚ)) (txn : Transaction)
    (htxn : txn.ProjectedAmount = none) :
    (buildProjection ts s).Projected = ts.map (projectTxn (parseAdjustments s)) ∧
    ((∀ tg ∈ txn.Tags, lookupA m tg = none) →
      (projectTxn m txn).Amount = txn.Amount) ∧
    (∀ (pre : List String) (tg : String) (rest : List String) (δ : ℚ),
      txn.Tags = pre ++ tg :: rest →
      (∀ t' ∈ pre, lookupA m t' = none) → lookupA m tg = some δ →
      (projectTxn m txn).Amount = txn.Amount * (1 + δ)) := by
  refine ⟨rfl, ?_, ?_⟩
  · intro h
    simp only [projectTxn, htxn]
    exact adjustScan_of_no_match m txn.Tags txn.Amount h
  · intro pre tg rest δ htags hpre htg
    simp only [projectTxn, htxn]
    rw [htags]
    exact adjustScan_first_match m pre tg rest δ txn.Amount hpre htg

/-- Transaction used in the C4 witness: tagged `[Food, Salary]`, amount
`-10`, no inline projected amount. -/
def txnC4 : Transaction := ⟨dateZero, "expense", -10, "Lunch", ["Food", "Salary"], none⟩

/-- C4 witness: with `--adjust Food=-0.5,Salary=0.2`, only the `Food`
delta applies to `txnC4` and the projected amount is `-5`. -/
theorem projection_first_tag_wins_witness :
    (projectTxn (parseAdjustments "Food=-0.5,Salary=0.2") txnC4).Amount
        = txnC4.Amount * (1 + (-(1 : ℚ)/2)) ∧
    txnC4.Amount * (1 + (-(1 : ℚ)/2)) = -5 := by
  constructor
  · exact (projection_first_tag_wins "" [] (parseAdjustments "Food=-0.5,Salary=0.2")
      txnC4 rfl).2.2 [] "Food" ["Salary"] (-(1 : ℚ)/2) rfl (by simp)
      (by with_unfolding_all rfl)
  · show (-10 : ℚ) * (1 + (-(1 : ℚ)/2)) = -5
    norm_num

/-- Transaction used in the C3 counterexample: an expense with an inline
projected magnitude of `0`. -/
def txnC3 : Transaction := ⟨dateZero, "expense", -10, "Lunch", ["Food"], some 0⟩

/-- C3 counterexample: with inline projected amount `0`, an expense
(amount `-10 < 0`) projects to amount `0`, which is not `< 0` — under the
program's own classification rule (`income` iff amount ≥ 0) the projected
copy is income, so the income/expense classification is NOT preserved as
the claim states. -/
theorem projected_zero_flips_class :
    txnC3.Amount < 0 ∧
    (buildProjection [txnC3] "Food=-0.5").Projected
        = [projectTxn (parseAdjustments "Food=-0.5") txnC3] ∧
    (projectTxn (parseAdjustments "Food=-0.5") txnC3).Amount = 0 ∧
    ¬ (projectTxn (parseAdjustments "Food=-0.5") txnC3).Amount < 0 := by
  have h0 : (projectTxn (parseAdjustments "Food=-0.5") txnC3).Amount = 0 := by
    with_unfolding_all rfl
  refine ⟨by norm_num [txnC3], rfl, h0, ?_⟩
  rw [h0]
  exact lt_irrefl 0

/-- C3 as amended: a transaction with an inline `projected_amount p` always
projects to amount `signum(original amount) * p`, for every adjustment map
(so any matching tag adjustment is ignored); the income/expense
classification is preserved whenever the projected magnitude `p` is
positive (with `p = 0` an expense projects to the income amount `0`, the
counterexample above). -/
theorem projected_override_sign (s : String) (ts : List Transaction) (i : ℕ)
    (txn : Transaction) (p : ℚ) (hget : ts[i]? = some txn)
    (hp : txn.ProjectedAmount = some p) :
    (buildProjection ts s).Projected[i]? = some (projectTxn (parseAdjustments s) txn) ∧
    ∀ m : List (String × ℚ),
      (projectTxn m txn).Amount = (signum txn.Amount : ℚ) * p ∧
      (0 < p → ((projectTxn m txn).Amount < 0 ↔ txn.Amount < 0)) := by
  constructor
  · show (ts.map (projectTxn (parseAdjustments s)))[i]? = _
    rw [List.getElem?_map, hget]
    rfl
  · intro m
    have hamt : (projectTxn m txn).Amount = (signum txn.Amount : ℚ) * p := by
      simp only [projectTxn, hp]
    refine ⟨hamt, ?_⟩
    intro hp0
    rw [hamt]
    unfold signum
    by_cases hneg : txn.Amount < 0
    · simp only [hneg, if_pos, iff_true]
      push_cast
      nlinarith
    · simp only [hneg, if_neg, iff_false, not_lt]
      push_cast
      nlinarith

/-- Transaction used in the C3 witness: amount `-10`, projected magnitude
`8`, tagged `Food` while `--adjust Food=-0.5` is in force. -/
def txnC3w : Transaction := ⟨dateZero, "expense", -10, "Lunch", ["Food"], some 8⟩

/-- C3 witness: `txnC3w` projects to amount `-8` (sign preserved,
magnitude replaced, the matching `Food` adjustment ignored). -/
theorem projected_override_sign_witness :
    (buildProjection [txnC3w] "Food=-0.5").Projected[0]?
        = some (projectTxn (parseAdjustments "Food=-0.5") txnC3w) ∧
    (projectTxn (parseAdjustments "Food=-0.5") txnC3w).Amount
        = (signum txnC3w.Amount : ℚ) * 8 ∧
    (projectTxn (parseAdjustments "Food=-0.5") txnC3w).Amount = -8 := by
  have h := projected_override_sign "Food=-0.5" [txnC3w] 0 txnC3w 8 rfl rfl
  exact ⟨h.1, (h.2 (parseAdjustments "Food=-0.5")).1, by with_unfolding_all rfl⟩

/-! ### Claim theorems: removal timing (C1) -/

/-- Transaction used in the C1 counterexample: an expense tagged `Food`. -/
def txnC1 : Transaction := ⟨dateZero, "expense", -10, "Lunch", ["Food"], none⟩

/-- Filter configuration with only `--remove Food` set. -/
def cfgRemove : FilterConfig := ⟨"", "", dateZero, dateZero, "Food"⟩

/-- C1 counterexample: with `--remove Food`, the `Food`-tagged transaction
is excluded from the ORIGINAL side of the projection as well (removal runs
in `applyFilters`, before `buildProjection`), so the original sequence and
its aggregate totals do NOT still include the removed transaction: the
original side is empty and its totals are `(0, 0)`, not `(0, -10)`. -/
theorem removal_affects_original_cex :
    txnC1.Tags = ["Food"] ∧ txnC1.Amount = -10 ∧
    (pipelineProjection cfgRemove "" [txnC1]).Original = [] ∧
    (pipelineProjection cfgRemove "" [txnC1]).Projected = [] ∧
    totalAmounts (pipelineProjection cfgRemove "" [txnC1]).Original = (0, 0) := by
  refine ⟨rfl, rfl, ?_, ?_, ?_⟩ <;> with_unfolding_all rfl

/-- C1 as amended: removal is applied inside `applyFilters`, before the
projection is built, so a transaction carrying a removal-set tag is
excluded uniformly from BOTH the original and the projected side of the
comparison; the original side equals the filtered sequence. -/
theorem removal_excludes_from_both (cfg : FilterConfig) (adjust : String)
    (ts : List Transaction) :
    (pipelineProjection cfg adjust ts).Original = applyFilters cfg ts ∧
    (∀ t ∈ (pipelineProjection cfg adjust ts).Original,
      hasAnyTag t (parseRemovals cfg.removeTags) = false) ∧
    (∀ t ∈ (pipelineProjection cfg adjust ts).Projected,
      hasAnyTag t (parseRemovals cfg.removeTags) = false) := by
  have horig : (pipelineProjection cfg adjust ts).Original = applyFilters cfg ts := rfl
  have hkeep : ∀ t ∈ applyFilters cfg ts,
      hasAnyTag t (parseRemovals cfg.removeTags) = false := by
    intro t ht
    have hk := List.of_mem_filter ht
    by_cases h : hasAnyTag t (parseRemovals cfg.removeTags) = true
    · rw [keepTxn, if_pos h] at hk
      exact absurd hk (by simp)
    · simpa using h
  refine ⟨horig, ?_, ?_⟩
  · rw [horig]; exact hkeep
  · intro t ht
    have : (pipelineProjection cfg adjust ts).Projected
        = (applyFilters cfg ts).map (projectTxn (parseAdjustments adjust)) := rfl
    rw [this] at ht
    obtain ⟨t0, ht0, rfl⟩ := List.mem_map.mp ht
    rw [hasAnyTag_projectTxn]
    exact hkeep t0 ht0

/-- Transaction used in the C1 witness: an income not tagged `Food`. -/
def txnC1w : Transaction := ⟨dateZero, "income", 100, "Pay", ["Salary"], none⟩

/-- C1 witness: with `--remove Food` over `[txnC1, txnC1w]`, the surviving
original side is `[txnC1w]` and it carries no removal-set tag. -/
theorem removal_excludes_from_both_witness :
    (pipelineProjection cfgRemove "" [txnC1, txnC1w]).Original = [txnC1w] ∧
    hasAnyTag txnC1w (parseRemovals cfgRemove.removeTags) = false := by
  have h := removal_excludes_from_both cfgRemove "" [txnC1, txnC1w]
  have horig : (pipelineProjection cfgRemove "" [txnC1, txnC1w]).Original = [txnC1w] := by
    decide
  exact ⟨horig, h.2.1 txnC1w (horig ▸ List.mem_singleton.mpr rfl)⟩

/-! ### Tag aggregation (src/main.go `tagTotals`) -/

/-- Go map update `out[k] += a` (a missing key reads as `0`), on the
insertion-ordered association-list model of `map[string]float64`. -/
def bumpQ (m : List (String × ℚ)) (k : String) (a : ℚ) : List (String × ℚ) :=
  match m with
  | [] => [(k, a)]
  | (k', v) :: r => if k' = k then (k', v + a) :: r else (k', v) :: bumpQ r k a

/-- Go map read `out[k]` with the zero value `0` for a missing key. -/
def getQ (m : List (String × ℚ)) (k : String) : ℚ :=
  match m with
  | [] => 0
  | (k', v) :: r => if k' = k then v else getQ r k

/-- One iteration of the `tagTotals` loop of src/main.go: an untagged
transaction adds its amount to the `"_untagged_"` bucket, otherwise each
of its tags receives the full amount. -/
def tagStep (m : List (String × ℚ)) (txn : Transaction) : List (String × ℚ) :=
  if txn.Tags.isEmpty then bumpQ m "_untagged_" txn.Amount
  else txn.Tags.foldl (fun m' tg => bumpQ m' tg txn.Amount) m

/-- `tagTotals` of src/main.go. -/
def tagTotals (transactions : List Transaction) : List (String × ℚ) :=
  transactions.foldl tagStep []

/-- What one transaction contributes to bucket `k` in `tagTotals`:
untagged transactions feed the `"_untagged_"` bucket; otherwise the
amount once per occurrence of `k` in the tag list. -/
def contributionQ (k : String) (t : Transaction) : ℚ :=
  if t.Tags = [] then (if k = "_untagged_" then t.Amount else 0)
  else (t.Tags.count k : ℚ) * t.Amount

theorem getQ_bumpQ (k : String) (a : ℚ) (j : String) :
    ∀ m, getQ (bumpQ m k a) j = getQ m j + (if j = k then a else 0) := by
  intro m
  induction m with
  | nil =>
    by_cases h : k = j <;> simp [bumpQ, getQ, h] <;> simp [Ne.symm h]
  | cons kv r ih =>
    obtain ⟨k', v⟩ := kv
    by_cases hk : k' = k
    · subst hk
      by_cases hj : k' = j
      · subst hj
        simp [bumpQ, getQ]
      · simp [bumpQ, getQ, hj, Ne.symm hj]
    · by_cases hj : k' = j
      · subst hj
        simp [bumpQ, getQ, hk]
      · simp [bumpQ, getQ, hk, hj, ih]

theorem getQ_foldl_bumpQ (a : ℚ) (j : String) :
    ∀ (tags : List String) (m : List (String × ℚ)),
      getQ (tags.foldl (fun m' tg => bumpQ m' tg a) m) j
        = getQ m j + (tags.count j : ℚ) * a := by
  intro tags
  induction tags with
  | nil => intro m; simp
  | cons t rest ih =>
    intro m
    rw [List.foldl_cons, ih (bumpQ m t a), getQ_bumpQ, List.count_cons]
    by_cases h : j = t
    · simp only [h, if_pos rfl, beq_self_eq_true]
      push_cast
      ring
    · have : (t == j) = false := by simp [Ne.symm h]
      simp only [if_neg h, this]
      push_cast
      ring

theorem getQ_tagStep (j : String) (m : List (String × ℚ)) (t : Transaction) :
    getQ (tagStep m t) j = getQ m j + contributionQ j t := by
  unfold tagStep contributionQ
  cases htags : t.Tags with
  | nil => simp [getQ_bumpQ]
  | cons a l =>
    simp only [htags, List.isEmpty_cons, if_neg Bool.false_ne_true]
    rw [getQ_foldl_bumpQ]
    simp

theorem getQ_foldl_tagStep (j : String) :
    ∀ (ts : List Transaction) (m : List (String × ℚ)),
      getQ (ts.foldl tagStep m) j = getQ m j + (ts.map (contributionQ j)).sum := by
  intro ts
  induction ts with
  | nil => intro m; simp
  | cons t rest ih =>
    intro m
    rw [List.foldl_cons, ih (tagStep m t), getQ_tagStep]
    simp
    ring

/-- The bucket contents of `tagTotals`: bucket `j` holds the sum of the
per-transaction contributions. -/
theorem getQ_tagTotals (ts : List Transaction) (j : String) :
    getQ (tagTotals ts) j = (ts.map (contributionQ j)).sum := by
  unfold tagTotals
  rw [getQ_foldl_tagStep]
  simp [getQ]

/-- Sum of an if-then-else map equals the sum of the map over the filter. -/
theorem sum_map_ite {α M : Type} [AddCommMonoid M] (p : α → Prop) [DecidablePred p]
    (f : α → M) :
    ∀ l : List α,
      (l.map (fun x => if p x then f x else 0)).sum
        = ((l.filter (fun x => decide (p x))).map f).sum := by
  intro l
  induction l with
  | nil => rfl
  | cons x xs ih => by_cases h : p x <;> simp [List.filter_cons, h, ih]

/-- C7: `tagTotals` sends each tag `k` (or the synthetic untagged key for
transactions with zero tags) to the sum of the amounts of the
transactions carrying `k`, each transaction contributing its FULL amount
once per occurrence of `k` among its tags (fan-out, never split or
prorated); when no transaction repeats a tag, bucket `k` is exactly the
sum of the amounts of the transactions carrying `k` (or, for the untagged
key, having no tags). -/
theorem tagTotals_fanout (ts : List Transaction) (k : String) :
    getQ (tagTotals ts) k
      = (ts.map (fun t =>
          if t.Tags = [] then (if k = "_untagged_" then t.Amount else 0)
          else (t.Tags.count k : ℚ) * t.Amount)).sum ∧
    ((∀ t ∈ ts, t.Tags.Nodup) →
      getQ (tagTotals ts) k
        = ((ts.filter (fun t =>
            decide (k ∈ t.Tags ∨ (t.Tags = [] ∧ k = "_untagged_")))).map
              (fun t => t.Amount)).sum) := by
  constructor
  · exact getQ_tagTotals ts k
  · intro hnd
    rw [getQ_tagTotals]
    have hpt : ∀ t ∈ ts, contributionQ k t
        = (if (k ∈ t.Tags ∨ (t.Tags = [] ∧ k = "_untagged_")) then t.Amount else 0) := by
      intro t ht
      unfold contributionQ
      cases htags : t.Tags with
      | nil => simp
      | cons a l =>
        have hnodup : (a :: l).Nodup := htags ▸ hnd t ht
        simp only [List.cons_ne_nil, if_neg, false_and, or_false]
        by_cases hk : k ∈ a :: l
        · rw [List.count_eq_one_of_mem hnodup hk, if_pos hk]
          push_cast
          ring
        · rw [List.count_eq_zero_of_not_mem hk, if_neg hk]
          push_cast
          ring
    rw [List.map_congr_left hpt]
    exact sum_map_ite _ _ ts

/-- Transaction used in the C7 witness: tags `[A, B]`, amount `-20`. -/
def txnC7 : Transaction := ⟨dateZero, "expense", -20, "x", ["A", "B"], none⟩

/-- C7 witness: `txnC7` contributes `-20` to both bucket `A` and bucket
`B` (not `-10` each). -/
theorem tagTotals_fanout_witness :
    getQ (tagTotals [txnC7]) "A" = -20 ∧ getQ (tagTotals [txnC7]) "B" = -20 := by
  have hA := (tagTotals_fanout [txnC7] "A").2 (by decide)
  have hB := (tagTotals_fanout [txnC7] "B").2 (by decide)
  exact ⟨hA.trans (by with_unfolding_all rfl), hB.trans (by with_unfolding_all rfl)⟩

/-- Transaction used in the C5 counterexample: carries the literal tag
string `_untagged_`. -/
def txnC5 : Transaction := ⟨dateZero, "income", 7, "sneaky", ["_untagged_"], none⟩

/-- C5 counterexample: the untagged bucket key is the plain string
`"_untagged_"`, so a transaction carrying at least one tag CAN contribute
to the untagged bucket: `txnC5` has a nonempty tag list, yet the
`"_untagged_"` bucket over `[txnC5]` holds its amount `7` (it is `0`
without the transaction) — a user-supplied tag name collides with the
synthetic key. -/
theorem untagged_key_collision_cex :
    txnC5.Tags ≠ [] ∧
    getQ (tagTotals [txnC5]) "_untagged_" = 7 ∧
    getQ (tagTotals []) "_untagged_" = 0 := by
  refine ⟨by decide, ?_, rfl⟩
  with_unfolding_all rfl

/-- C5 as amended: the synthetic untagged bucket is the literal key
`"_untagged_"`; it is fed by every transaction with an empty tag list,
and ONLY by those provided no transaction carries the literal string
`_untagged_` as a real tag — without that assumption a user-written tag
equal to the key collides with the bucket (see the counterexample). -/
theorem untagged_bucket_no_collision (ts : List Transaction)
    (h : ∀ t ∈ ts, "_untagged_" ∉ t.Tags) :
    getQ (tagTotals ts) "_untagged_"
      = ((ts.filter (fun t => t.Tags.isEmpty)).map (fun t => t.Amount)).sum := by
  rw [getQ_tagTotals]
  have hpt : ∀ t ∈ ts, contributionQ "_untagged_" t
      = (if t.Tags = [] then t.Amount else 0) := by
    intro t ht
    unfold contributionQ
    cases htags : t.Tags with
    | nil => simp
    | cons a l =>
      have hmem : "_untagged_" ∉ a :: l := htags ▸ h t ht
      simp [List.count_eq_zero_of_not_mem hmem]
  rw [List.map_congr_left hpt]
  rw [sum_map_ite (fun t : Transaction => t.Tags = []) (fun t => t.Amount) ts]
  have hf : ts.filter (fun x => decide (x.Tags = [])) = ts.filter (fun t => t.Tags.isEmpty) := by
    apply List.filter_congr
    intro t _
    cases t.Tags <;> simp
  rw [hf]

/-- Transactions used in the C5 witness: one tagged `A`, one untagged. -/
def txnC5a : Transaction := ⟨dateZero, "income", 3, "a", ["A"], none⟩

/-- Untagged transaction for the C5 witness. -/
def txnC5b : Transaction := ⟨dateZero, "income", 4, "b", [], none⟩

/-- C5 witness: with no colliding tag, the untagged bucket holds exactly
the untagged transaction's amount `4`. -/
theorem untagged_bucket_no_collision_witness :
    getQ (tagTotals [txnC5a, txnC5b]) "_untagged_"
      = (([txnC5a, txnC5b].filter (fun t => t.Tags.isEmpty)).map (fun t => t.Amount)).sum ∧
    getQ (tagTotals [txnC5a, txnC5b]) "_untagged_" = 4 := by
  refine ⟨untagged_bucket_no_collision _ (by decide), ?_⟩
  with_unfolding_all rfl

/-! ### High-impact tags (src/main.go `printHighImpactTags`; the identical
computation is duplicated in `exportProjectionMarkdown`) -/

/-- The `tagStats` record of src/main.go. -/
structure TagStats where
  Tag : String
  Total : ℚ
  Count : ℕ
  AvgPerTxn : ℚ
deriving DecidableEq, Repr

/-- Go map update for the stats map: add the amount to the running total
and increment the count, creating the entry with count 1 when absent. -/
def bumpS (m : List (String × ℚ × ℕ)) (k : String) (a : ℚ) : List (String × ℚ × ℕ) :=
  match m with
  | [] => [(k, a, 1)]
  | (k', t, c) :: r => if k' = k then (k', t + a, c + 1) :: r else (k', t, c) :: bumpS r k a

/-- Running total read for key `k` (0 when absent). -/
def getTot (m : List (String × ℚ × ℕ)) (k : String) : ℚ :=
  match m with
  | [] => 0
  | (k', t, _) :: r => if k' = k then t else getTot r k

/-- Running count read for key `k` (0 when absent). -/
def getCnt (m : List (String × ℚ × ℕ)) (k : String) : ℕ :=
  match m with
  | [] => 0
  | (k', _, c) :: r => if k' = k then c else getCnt r k

/-- The effective tag list used by the high-impact computation: the
literal `["_untagged_"]` substitutes for an empty tag list. -/
def effTags (t : Transaction) : List String :=
  if t.Tags.isEmpty then ["_untagged_"] else t.Tags

/-- One iteration of the high-impact loop: income (amount ≥ 0) is
skipped; otherwise every effective tag's entry is bumped. -/
def statsStep (m : List (String × ℚ × ℕ)) (t : Transaction) : List (String × ℚ × ℕ) :=
  if 0 ≤ t.Amount then m
  else (effTags t).foldl (fun m' tg => bumpS m' tg t.Amount) m

/-- The `tagData` map of `printHighImpactTags`, as an insertion-ordered
association list (Go iterates the map in unspecified order before
sorting; insertion order is one admissible determinisation, and every
property proved below is independent of it). -/
def statsMap (ts : List Transaction) : List (String × ℚ × ℕ) :=
  ts.foldl statsStep []

/-- Converting one map entry to a `tagStats` record, computing
`AvgPerTxn = Total / Count`. -/
def toStat (e : String × ℚ × ℕ) : TagStats := ⟨e.1, e.2.1, e.2.2, e.2.1 / (e.2.2 : ℚ)⟩

/-- The comparison used by the `sort.Slice` call: ascending by total. -/
def statLE (a b : TagStats) : Prop := a.Total ≤ b.Total

instance : DecidableRel statLE :=
  fun a b => inferInstanceAs (Decidable (a.Total ≤ b.Total))

instance : IsTotal TagStats statLE := ⟨fun a b => le_total a.Total b.Total⟩

instance : IsTrans TagStats statLE := ⟨fun _ _ _ h1 h2 => le_trans h1 h2⟩

/-- `printHighImpactTags` up to rendering: build the per-tag expense
stats, sort ascending by total (Go's `sort.Slice` is an unstable sort;
insertion sort is one admissible outcome) and keep the first `topN`. -/
def highImpactTags (ts : List Transaction) (topN : ℕ) : List TagStats :=
  (List.insertionSort statLE ((statsMap ts).map toStat)).take topN

/-- Specification-side total for tag `k`: over expense transactions only,
the amount once per occurrence of `k` among the effective tags. -/
def expTotal (ts : List Transaction) (k : String) : ℚ :=
  ((ts.filter (fun t => decide (t.Amount < 0))).map
    (fun t => ((effTags t).count k : ℚ) * t.Amount)).sum

/-- Specification-side count for tag `k` over expense transactions. -/
def expCount (ts : List Transaction) (k : String) : ℕ :=
  ((ts.filter (fun t => decide (t.Amount < 0))).map
    (fun t => (effTags t).count k)).sum

theorem getTot_bumpS (k : String) (a : ℚ) (j : String) :
    ∀ m, getTot (bumpS m k a) j = getTot m j + (if j = k then a else 0) := by
  intro m
  induction m with
  | nil =>
    by_cases h : k = j <;> simp [bumpS, getTot, h] <;> simp [Ne.symm h]
  | cons kv r ih =>
    obtain ⟨k', t, c⟩ := kv
    by_cases hk : k' = k
    · subst hk
      by_cases hj : k' = j
      · subst hj
        simp [bumpS, getTot]
      · simp [bumpS, getTot, hj, Ne.symm hj]
    · by_cases hj : k' = j
      · subst hj
        simp [bumpS, getTot, hk]
      · simp [bumpS, getTot, hk, hj, ih]

theorem getCnt_bumpS (k : String) (a : ℚ) (j : String) :
    ∀ m, getCnt (bumpS m k a) j = getCnt m j + (if j = k then 1 else 0) := by
  intro m
  induction m with
  | nil =>
    by_cases h : k = j <;> simp [bumpS, getCnt, h] <;> simp [Ne.symm h]
  | cons kv r ih =>
    obtain ⟨k', t, c⟩ := kv
    by_cases hk : k' = k
    · subst hk
      by_cases hj : k' = j
      · subst hj
        simp [bumpS, getCnt]
      · simp [bumpS, getCnt, hj, Ne.symm hj]
    · by_cases hj : k' = j
      · subst hj
        simp [bumpS, getCnt, hk]
      · simp [bumpS, getCnt, hk, hj, ih]

theorem getTot_foldl_bumpS (a : ℚ) (j : String) :
    ∀ (tags : List String) (m : List (String × ℚ × ℕ)),
      getTot (tags.foldl (fun m' tg => bumpS m' tg a) m) j
        = getTot m j + (tags.count j : ℚ) * a := by
  intro tags
  induction tags with
  | nil => intro m; simp
  | cons t rest ih =>
    intro m
    rw [List.foldl_cons, ih (bumpS m t a), getTot_bumpS, List.count_cons]
    by_cases h : j = t
    · simp only [h, if_pos rfl, beq_self_eq_true]
      push_cast
      ring
    · have : (t == j) = false := by simp [Ne.symm h]
      simp only [if_neg h, this]
      push_cast
      ring

theorem getCnt_foldl_bumpS (a : ℚ) (j : String) :
    ∀ (tags : List String) (m : List (String × ℚ × ℕ)),
      getCnt (tags.foldl (fun m' tg => bumpS m' tg a) m) j
        = getCnt m j + tags.count j := by
  intro tags
  induction tags with
  | nil => intro m; simp
  | cons t rest ih =>
    intro m
    rw [List.foldl_cons, ih (bumpS m t a), getCnt_bumpS, List.count_cons]
    by_cases h : j = t
    · simp only [h, if_pos rfl, beq_self_eq_true]
      ring
    · have : (t == j) = false := by simp [Ne.symm h]
      simp only [if_neg h, this]
      simp

theorem getTot_statsStep (j : String) (m : List (String × ℚ × ℕ)) (t : Transaction) :
    getTot (statsStep m t) j
      = getTot m j + (if t.Amount < 0 then ((effTags t).count j : ℚ) * t.Amount else 0) := by
  unfold statsStep
  by_cases h : 0 ≤ t.Amount
  · simp [h, not_lt.mpr h]
  · rw [if_neg h, getTot_foldl_bumpS, if_pos (not_le.mp h)]

theorem getCnt_statsStep (j : String) (m : List (String × ℚ × ℕ)) (t : Transaction) :
    getCnt (statsStep m t) j
      = getCnt m j + (if t.Amount < 0 then (effTags t).count j else 0) := by
  unfold statsStep
  by_cases h : 0 ≤ t.Amount
  · simp [h, not_lt.mpr h]
  · rw [if_neg h, getCnt_foldl_bumpS, if_pos (not_le.mp h)]

theorem getTot_statsMap (ts : List Transaction) (j : String) :
    getTot (statsMap ts) j = expTotal ts j := by
  have haux : ∀ (l : List Transaction) (m : List (String × ℚ × ℕ)),
      getTot (l.foldl statsStep m) j
        = getTot m j
          + (l.map (fun t =>
              if t.Amount < 0 then ((effTags t).count j : ℚ) * t.Amount else 0)).sum := by
    intro l
    induction l with
    | nil => intro m; simp
    | cons t rest ih =>
      intro m
      rw [List.foldl_cons, ih (statsStep m t), getTot_statsStep]
      simp
      ring
  unfold statsMap expTotal
  rw [haux, sum_map_ite]
  simp [getTot]

theorem getCnt_statsMap (ts : List Transaction) (j : String) :
    getCnt (statsMap ts) j = expCount ts j := by
  have haux : ∀ (l : List Transaction) (m : List (String × ℚ × ℕ)),
      getCnt (l.foldl statsStep m) j
        = getCnt m j
          + (l.map (fun t => if t.Amount < 0 then (effTags t).count j else 0)).sum := by
    intro l
    induction l with
    | nil => intro m; simp
    | cons t rest ih =>
      intro m
      rw [List.foldl_cons, ih (statsStep m t), getCnt_statsStep]
      simp
      ring
  unfold statsMap expCount
  rw [haux, sum_map_ite]
  simp [getCnt]

theorem keys_bumpS (k : String) (a : ℚ) :
    ∀ m : List (String × ℚ × ℕ),
      (bumpS m k a).map Prod.fst
        = if k ∈ m.map Prod.fst then m.map Prod.fst else m.map Prod.fst ++ [k] := by
  intro m
  induction m with
  | nil => simp [bumpS]
  | cons kv r ih =>
    obtain ⟨k', t, c⟩ := kv
    by_cases hk : k' = k
    · subst hk
      simp [bumpS]
    · simp only [bumpS, if_neg hk, List.map_cons, ih]
      by_cases hmem : k ∈ r.map Prod.fst
      · simp [hmem, Ne.symm hk]
      · simp [hmem, Ne.symm hk]

theorem nodup_keys_bumpS (k : String) (a : ℚ) (m : List (String × ℚ × ℕ))
    (h : (m.map Prod.fst).Nodup) : ((bumpS m k a).map Prod.fst).Nodup := by
  rw [keys_bumpS]
  by_cases hmem : k ∈ m.map Prod.fst
  · simpa [hmem] using h
  · simp [hmem, List.nodup_append, h]

theorem cnt_pos_bumpS (k : String) (a : ℚ) :
    ∀ m : List (String × ℚ × ℕ), (∀ e ∈ m, 1 ≤ e.2.2) →
      ∀ e ∈ bumpS m k a, 1 ≤ e.2.2 := by
  intro m
  induction m with
  | nil =>
    intro _ e he
    simp [bumpS] at he
    simp [he]
  | cons kv r ih =>
    obtain ⟨k', t, c⟩ := kv
    intro h e he
    by_cases hk : k' = k
    · subst hk
      rw [bumpS, if_pos rfl] at he
      rcases List.mem_cons.mp he with h1 | h1
      · subst h1
        have := h (k', t, c) (by simp)
        simpa using Nat.le_succ_of_le this
      · exact h e (by simp [h1])
    · rw [bumpS, if_neg hk] at he
      rcases List.mem_cons.mp he with h1 | h1
      · subst h1
        exact h (k', t, c) (by simp)
      · exact ih (fun e' he' => h e' (by simp [he'])) e h1

theorem nodup_keys_foldl_bumpS (a : ℚ) :
    ∀ (tags : List String) (m : List (String × ℚ × ℕ)),
      (m.map Prod.fst).Nodup →
      (((tags.foldl (fun m' tg => bumpS m' tg a) m)).map Prod.fst).Nodup := by
  intro tags
  induction tags with
  | nil => intro m h; exact h
  | cons t rest ih =>
    intro m h
    exact ih (bumpS m t a) (nodup_keys_bumpS t a m h)

theorem cnt_pos_foldl_bumpS (a : ℚ) :
    ∀ (tags : List String) (m : List (String × ℚ × ℕ)),
      (∀ e ∈ m, 1 ≤ e.2.2) →
      ∀ e ∈ tags.foldl (fun m' tg => bumpS m' tg a) m, 1 ≤ e.2.2 := by
  intro tags
  induction tags with
  | nil => intro m h; exact h
  | cons t rest ih =>
    intro m h
    exact ih (bumpS m t a) (cnt_pos_bumpS t a m h)

theorem nodup_keys_statsMap (ts : List Transaction) :
    ((statsMap ts).map Prod.fst).Nodup := by
  have haux : ∀ (l : List Transaction) (m : List (String × ℚ × ℕ)),
      (m.map Prod.fst).Nodup → ((l.foldl statsStep m).map Prod.fst).Nodup := by
    intro l
    induction l with
    | nil => intro m h; exact h
    | cons t rest ih =>
      intro m h
      apply ih
      unfold statsStep
      by_cases h0 : 0 ≤ t.Amount
      · simpa [h0] using h
      · rw [if_neg h0]
        exact nodup_keys_foldl_bumpS t.Amount (effTags t) m h
  exact haux ts [] (by simp)

theorem cnt_pos_statsMap (ts : List Transaction) :
    ∀ e ∈ statsMap ts, 1 ≤ e.2.2 := by
  have haux : ∀ (l : List Transaction) (m : List (String × ℚ × ℕ)),
      (∀ e ∈ m, 1 ≤ e.2.2) → ∀ e ∈ l.foldl statsStep m, 1 ≤ e.2.2 := by
    intro l
    induction l with
    | nil => intro m h; exact h
    | cons t rest ih =>
      intro m h
      apply ih
      unfold statsStep
      by_cases h0 : 0 ≤ t.Amount
      · simpa [h0] using h
      · rw [if_neg h0]
        exact cnt_pos_foldl_bumpS t.Amount (effTags t) m h
  exact haux ts [] (by simp)

theorem get_of_mem_nodup (k : String) (t : ℚ) (c : ℕ) :
    ∀ m : List (String × ℚ × ℕ), (m.map Prod.fst).Nodup → (k, t, c) ∈ m →
      getTot m k = t ∧ getCnt m k = c := by
  intro m
  induction m with
  | nil => intro _ h; simp at h
  | cons kv r ih =>
    obtain ⟨k', t', c'⟩ := kv
    intro hnd hmem
    rcases List.mem_cons.mp hmem with h1 | h1
    · injection h1 with hk htc
      injection htc with ht hc
      subst hk
      subst ht
      subst hc
      simp [getTot, getCnt]
    · have hnd' : k' ∉ r.map Prod.fst ∧ (r.map Prod.fst).Nodup := by
        rw [List.map_cons, List.nodup_cons] at hnd
        exact hnd
      have hk' : k' ≠ k := by
        intro heq
        subst heq
        exact hnd'.1 (List.mem_map_of_mem Prod.fst h1)
      have := ih hnd'.2 h1
      simp [getTot, getCnt, hk', this]

theorem getCnt_eq_zero_of_not_mem (k : String) :
    ∀ m : List (String × ℚ × ℕ), k ∉ m.map Prod.fst → getCnt m k = 0 := by
  intro m
  induction m with
  | nil => intro _; rfl
  | cons kv r ih =>
    obtain ⟨k', t', c'⟩ := kv
    intro h
    simp only [List.map_cons, List.mem_cons] at h
    push_neg at h
    simp [getCnt, Ne.symm h.1, ih h.2]

/-- C8: the high-impact-tags computation considers expense transactions
only (`expTotal`/`expCount` range over `Amount < 0`): the result is
ascending-sorted by total (most negative first), has `min topN
(number of expense tags)` entries, each entry carries that tag's expense
total and count with `AvgPerTxn = Total / Count` and a positive count,
every kept entry's total is ≤ every discarded entry's total (so the
first `topN` are the most negative), the stats keys are exactly the tags
with expense activity (no duplicates), and when fewer tags exist than
`topN` all of them are returned. -/
theorem highImpact_spec (ts : List Transaction) (topN : ℕ) :
    (highImpactTags ts topN).length = min topN ((statsMap ts).length) ∧
    List.Sorted statLE (highImpactTags ts topN) ∧
    (∀ s ∈ highImpactTags ts topN,
      0 < s.Count ∧ s.Total = expTotal ts s.Tag ∧ s.Count = expCount ts s.Tag ∧
      s.AvgPerTxn = s.Total / (s.Count : ℚ)) ∧
    (∀ a ∈ highImpactTags ts topN,
      ∀ b ∈ (List.insertionSort statLE ((statsMap ts).map toStat)).drop topN, statLE a b) ∧
    (∀ k : String, k ∈ (statsMap ts).map Prod.fst ↔ expCount ts k ≠ 0) ∧
    ((statsMap ts).length ≤ topN →
      highImpactTags ts topN = List.insertionSort statLE ((statsMap ts).map toStat)) := by
  have hsorted : List.Sorted statLE (List.insertionSort statLE ((statsMap ts).map toStat)) :=
    List.sorted_insertionSort statLE _
  have hnodup := nodup_keys_statsMap ts
  refine ⟨?_, ?_, ?_, ?_, ?_, ?_⟩
  · unfold highImpactTags
    rw [List.length_take, List.length_insertionSort, List.length_map]
  · exact List.Pairwise.sublist (List.take_sublist _ _) hsorted
  · intro s hs
    have hsL : s ∈ List.insertionSort statLE ((statsMap ts).map toStat) :=
      (List.take_sublist _ _).subset hs
    have hsmap : s ∈ (statsMap ts).map toStat :=
      (List.perm_insertionSort statLE _).mem_iff.mp hsL
    obtain ⟨e, he, rfl⟩ := List.mem_map.mp hsmap
    obtain ⟨k, tc⟩ := e
    obtain ⟨t, c⟩ := tc
    have hg := get_of_mem_nodup k t c (statsMap ts) hnodup he
    refine ⟨cnt_pos_statsMap ts _ he, ?_, ?_, rfl⟩
    · exact hg.1.symm.trans (getTot_statsMap ts k)
    · exact hg.2.symm.trans (getCnt_statsMap ts k)
  · intro a ha b hb
    have h2 : List.Pairwise statLE
        ((List.insertionSort statLE ((statsMap ts).map toStat)).take topN
          ++ (List.insertionSort statLE ((statsMap ts).map toStat)).drop topN) := by
      rw [List.take_append_drop]
      exact hsorted
    exact (List.pairwise_append.mp h2).2.2 a ha b hb
  · intro k
    constructor
    · intro hk
      obtain ⟨e, he, hek⟩ := List.mem_map.mp hk
      obtain ⟨k', tc⟩ := e
      obtain ⟨t, c⟩ := tc
      dsimp at hek
      subst hek
      have hg := get_of_mem_nodup k' t c (statsMap ts) hnodup he
      have hc := cnt_pos_statsMap ts _ he
      rw [← getCnt_statsMap, hg.2]
      exact Nat.one_le_iff_ne_zero.mp hc
    · intro hk
      by_contra hmem
      have h0 := getCnt_eq_zero_of_not_mem k (statsMap ts) hmem
      rw [getCnt_statsMap] at h0
      exact hk h0
  · intro hle
    unfold highImpactTags
    apply List.take_of_length_le
    rw [List.length_insertionSort, List.length_map]
    exact hle

/-- Expense transaction for the C8 witness: total `-100` under tag `X`. -/
def txnC8a : Transaction := ⟨dateZero, "expense", -100, "a", ["X"], none⟩

/-- Expense transaction for the C8 witness: total `-5` under tag `Y`. -/
def txnC8b : Transaction := ⟨dateZero, "expense", -5, "b", ["Y"], none⟩

/-- Expense transaction for the C8 witness: total `-50` under tag `Z`. -/
def txnC8c : Transaction := ⟨dateZero, "expense", -50, "c", ["Z"], none⟩

/-- Transaction list for the C8 witness. -/
def tsC8 : List Transaction := [txnC8a, txnC8b, txnC8c]

/-- C8 witness: over expense totals `-100, -5, -50`, the top 2 are
`X (-100)` then `Z (-50)`, and the first entry satisfies the per-entry
contract of `highImpact_spec`. -/
theorem highImpact_spec_witness :
    highImpactTags tsC8 2 = [⟨"X", -100, 1, -100⟩, ⟨"Z", -50, 1, -50⟩] ∧
    (0 < (⟨"X", -100, 1, -100⟩ : TagStats).Count ∧
      (⟨"X", -100, 1, -100⟩ : TagStats).Total = expTotal tsC8 "X" ∧
      (⟨"X", -100, 1, -100⟩ : TagStats).Count = expCount tsC8 "X" ∧
      (⟨"X", -100, 1, -100⟩ : TagStats).AvgPerTxn
        = (⟨"X", -100, 1, -100⟩ : TagStats).Total
            / ((⟨"X", -100, 1, -100⟩ : TagStats).Count : ℚ)) := by
  have hlist : highImpactTags tsC8 2 = [⟨"X", -100, 1, -100⟩, ⟨"Z", -50, 1, -50⟩] := by
    with_unfolding_all rfl
  refine ⟨hlist, ?_⟩
  have h := (highImpact_spec tsC8 2).2.2.1 ⟨"X", -100, 1, -100⟩
    (by rw [hlist]; exact List.mem_cons_self _ _)
  exact h

/-! ### Line parser (src/main.go `parseSimpleMarkdown`)

The two regular expressions are embedded directly.  For this specific
pattern the greedy character-class runs admit no backtracking (a class
never overlaps the character required next), so greedy runs are maximal
`takeWhile`/`dropWhile` runs; the lazy `(.+?)` is the minimal-description
scan `descScan`, which tries the tail pattern after each added
description character; the optional groups prefer presence, falling back
to absence, as in the Go (leftmost-first) submatch semantics. -/

/-- Date-heading shape `^#\s+(\d{4}-\d{2}-\d{2})$` on a trimmed line,
returning the raw year/month/day numbers when the shape matches. -/
def dateShape (cs : List Char) : Option (ℕ × ℕ × ℕ) :=
  match cs with
  | '#' :: rest =>
    let rest' := rest.dropWhile isSpaceChar
    if rest'.length = rest.length then none
    else
      match rest' with
      | [y1, y2, y3, y4, h1, m1, m2, h2, d1, d2] =>
        if [y1, y2, y3, y4, m1, m2, d1, d2].all Char.isDigit && h1 = '-' && h2 = '-' then
          some (digitVal y1 * 1000 + digitVal y2 * 100 + digitVal y3 * 10 + digitVal y4,
                digitVal m1 * 10 + digitVal m2,
                digitVal d1 * 10 + digitVal d2)
        else none
      | _ => none
  | _ => none

/-- Proleptic Gregorian leap-year rule (as in Go's `time` package). -/
def isLeap (y : ℕ) : Bool := y % 4 = 0 && (y % 100 ≠ 0 || y % 400 = 0)

/-- Days in a month (Gregorian). -/
def daysInMonth (y m : ℕ) : ℕ :=
  if m = 2 then (if isLeap y then 29 else 28)
  else if m = 4 || m = 6 || m = 9 || m = 11 then 30
  else 31

/-- Validity check performed by `time.Parse("2006-01-02", ...)` on a
string that already has the digit shape: month 1-12, day in range. -/
def validDate (y m d : ℕ) : Bool :=
  1 ≤ m && m ≤ 12 && 1 ≤ d && d ≤ daysInMonth y m

/-- The optional tag group `(?:\s+\[([^\]]+)\])?` tried at position `s`:
one-or-more spaces, `[`, a nonempty run of non-`]` characters, `]`;
returns the captured run and the remainder. -/
def tagPart (s : List Char) : Option (List Char × List Char) :=
  match s with
  | c :: _ =>
    if isSpaceChar c then
      match s.dropWhile isSpaceChar with
      | '[' :: s2 =>
        let t := s2.takeWhile (fun ch => ch ≠ ']')
        if t.isEmpty then none
        else
          match s2.drop t.length with
          | ']' :: s' => some (t, s')
          | _ => none
      | _ => none
    else none
  | [] => none

/-- The optional projected-amount group `(?:\s+\(([\d.]+)\))?$` when
present: spaces, `(`, a nonempty `[\d.]+` run, `)`, end of line. -/
def parenExact (s : List Char) : Option (List Char) :=
  match s with
  | c :: _ =>
    if isSpaceChar c then
      match s.dropWhile isSpaceChar with
      | '(' :: s2 =>
        let d := s2.takeWhile isNumDot
        if d.isEmpty then none
        else
          match s2.drop d.length with
          | [')'] => some d
          | _ => none
      | _ => none
    else none
  | [] => none

/-- `(?:\s+\(([\d.]+)\))?$`: either end-of-line (group absent) or the
paren group consuming the whole remainder. -/
def parenOrEnd (s : List Char) : Option (Option (List Char)) :=
  if s.isEmpty then some none
  else
    match parenExact s with
    | some d => some (some d)
    | none => none

/-- The tail `(?:\s+\[([^\]]+)\])?(?:\s+\(([\d.]+)\))?$` after the
description: prefer the tag group present; if its continuation fails,
fall back to the tag group absent (leftmost-first alternation). -/
def tailMatch (s : List Char) : Option (Option (List Char) × Option (List Char)) :=
  match tagPart s with
  | some (tg, s') =>
    (match parenOrEnd s' with
     | some pj => some (some tg, pj)
     | none =>
       match parenOrEnd s with
       | some pj => some (none, pj)
       | none => none)
  | none =>
    match parenOrEnd s with
    | some pj => some (none, pj)
    | none => none

/-- The lazy description scan for `(.+?)`: `acc` holds the (nonempty)
description so far; extend it one character at a time until the tail
pattern matches the remainder (at the end of line the tail matches with
both optional groups absent). -/
def descScan (acc : List Char) : List Char → List Char × Option (List Char) × Option (List Char)
  | [] => (acc, none, none)
  | c :: rem =>
    match tailMatch (c :: rem) with
    | some (tg, pj) => (acc, tg, pj)
    | none => descScan (acc ++ [c]) rem

/-- The transaction regexp
`^([+-])\s*([\d.]+)\s+(.+?)(?:\s+\[([^\]]+)\])?(?:\s+\(([\d.]+)\))?$` on a
trimmed line: returns (sign char, magnitude run, raw description, raw tag
capture, raw projected capture). -/
def txnMatch (cs : List Char) :
    Option (Char × List Char × List Char × Option (List Char) × Option (List Char)) :=
  match cs with
  | sgn :: rest =>
    if sgn = '+' || sgn = '-' then
      let rest1 := rest.dropWhile isSpaceChar
      let num := rest1.takeWhile isNumDot
      if num.isEmpty then none
      else
        let rest2 := rest1.drop num.length
        match rest2 with
        | c :: _ =>
          if isSpaceChar c then
            match rest2.dropWhile isSpaceChar with
            | d :: drest =>
              let r := descScan [d] drest
              some (sgn, num, r.1, r.2.1, r.2.2)
            | [] => none
          else none
        | [] => none
    else none
  | [] => none

/-- The data extracted from one matched transaction line before the
date is attached: sign, parsed magnitude, raw description, raw captures. -/
def parseCore (l : String) :
    Option (Char × ℚ × List Char × Option (List Char) × Option (List Char)) :=
  let cs := trimChars l.data
  if cs.isEmpty then none
  else
    match dateShape cs with
    | some _ => none
    | none =>
      match txnMatch cs with
      | none => none
      | some (sgn, num, desc, tg, pj) =>
        match parseMagnitude num with
        | none => none
        | some a => some (sgn, a, desc, tg, pj)

/-- Build the emitted `Transaction` from a match, exactly as the struct
literal in src/main.go lines 130-137 does: negate on `-`, derive the kind
from the sign, trim the description, split-and-trim the tags, parse the
optional projected magnitude (absent when unparseable). -/
def mkTxn (d : GDate) (r : Char × ℚ × List Char × Option (List Char) × Option (List Char)) :
    Transaction :=
  let amount : ℚ := if r.1 = '-' then -r.2.1 else r.2.1
  { Date := d
    TType := if 0 ≤ amount then "income" else "expense"
    Amount := amount
    Description := String.mk (trimChars r.2.2.1)
    Tags :=
      match r.2.2.2.1 with
      | none => []
      | some t => (splitComma t).map (fun g => String.mk (trimChars g))
    ProjectedAmount :=
      match r.2.2.2.2 with
      | none => none
      | some pd => parseMagnitude pd }

/-- Processing of one line of the scanner loop, producing the emitted
transaction if any (dates do not emit; unmatched lines are skipped). -/
def parseLine (d : GDate) (l : String) : Option Transaction :=
  (parseCore l).map (mkTxn d)

/-- The date set by a line, when it is a date heading whose date parses
(a heading with an out-of-range date leaves the cursor unchanged). -/
def headingOf (l : String) : Option GDate :=
  match dateShape (trimChars l.data) with
  | some (y, mo, dy) => if validDate y mo dy then some ⟨y, mo, dy⟩ else none
  | none => none

/-- The date cursor after one line: updated by a successfully parsed
heading, otherwise unchanged. -/
def lineCursor (d : GDate) (l : String) : GDate :=
  match headingOf l with
  | some dt => dt
  | none => d

/-- The scanner loop of `parseSimpleMarkdown`, from a given date cursor. -/
def parseLinesFrom (d : GDate) : List String → List Transaction
  | [] => []
  | l :: ls =>
    match parseLine d l with
    | some t => t :: parseLinesFrom (lineCursor d l) ls
    | none => parseLinesFrom (lineCursor d l) ls

/-- `parseSimpleMarkdown` of src/main.go on the file's line list: the
date cursor starts at the zero `time.Time` (file I/O is outside the
verified core; the scanner yields the lines in order). -/
def parseSimpleMarkdown (lines : List String) : List Transaction :=
  parseLinesFrom dateZero lines

/-! ### Parser lemmas -/

theorem parseLine_date_type (d : GDate) (l : String) (t : Transaction)
    (h : parseLine d l = some t) :
    t.Date = d ∧ (t.TType = "income" ↔ 0 ≤ t.Amount) := by
  unfold parseLine at h
  obtain ⟨r, hr, ht⟩ := Option.map_eq_some'.mp h
  cases ht
  refine ⟨rfl, ?_⟩
  by_cases h0 : (0 : ℚ) ≤ (if r.1 = '-' then -r.2.1 else r.2.1)
  · simp [mkTxn, h0]
  · simp [mkTxn, h0]

theorem headingOf_parseLine (d : GDate) (l : String) (dt : GDate)
    (h : headingOf l = some dt) : parseLine d l = none ∧ lineCursor d l = dt := by
  refine ⟨?_, by simp [lineCursor, h]⟩
  unfold headingOf at h
  cases hds : dateShape (trimChars l.data) with
  | none => rw [hds] at h; exact absurd h (by simp)
  | some v =>
    have hne : (trimChars l.data).isEmpty = false := by
      cases hcs : trimChars l.data with
      | nil => rw [hcs] at hds; exact absurd hds (by simp [dateShape])
      | cons c cs => rfl
    simp [parseLine, parseCore, hne, hds]

theorem lineCursor_of_none (d : GDate) (l : String) (h : headingOf l = none) :
    lineCursor d l = d := by
  simp [lineCursor, h]

theorem parseLinesFrom_append (l₂ : List String) :
    ∀ (l₁ : List String) (d : GDate),
      parseLinesFrom d (l₁ ++ l₂)
        = parseLinesFrom d l₁ ++ parseLinesFrom (l₁.foldl lineCursor d) l₂ := by
  intro l₁
  induction l₁ with
  | nil => intro d; simp [parseLinesFrom]
  | cons l ls ih =>
    intro d
    simp only [List.cons_append, parseLinesFrom]
    cases h : parseLine d l with
    | some t => simp [ih]
    | none => simp [ih]

theorem parseLinesFrom_dates (dt : GDate) :
    ∀ ls : List String, (∀ l ∈ ls, headingOf l = none) →
      ∀ t ∈ parseLinesFrom dt ls, t.Date = dt := by
  intro ls
  induction ls with
  | nil => intro _ t ht; simp [parseLinesFrom] at ht
  | cons l rest ih =>
    intro h t ht
    have hl : headingOf l = none := h l (by simp)
    cases hp : parseLine dt l with
    | some t0 =>
      rw [show parseLinesFrom dt (l :: rest)
            = t0 :: parseLinesFrom (lineCursor dt l) rest from by
          simp [parseLinesFrom, hp]] at ht
      rw [lineCursor_of_none dt l hl] at ht
      rcases List.mem_cons.mp ht with h1 | h1
      · rw [h1]
        exact (parseLine_date_type dt l t0 hp).1
      · exact ih (fun l' hl' => h l' (by simp [hl'])) t h1
    | none =>
      rw [show parseLinesFrom dt (l :: rest) = parseLinesFrom (lineCursor dt l) rest from by
          simp [parseLinesFrom, hp]] at ht
      rw [lineCursor_of_none dt l hl] at ht
      exact ih (fun l' hl' => h l' (by simp [hl'])) t ht

theorem parseLinesFrom_kind :
    ∀ (ls : List String) (d : GDate),
      ∀ t ∈ parseLinesFrom d ls, (t.TType = "income" ↔ 0 ≤ t.Amount) := by
  intro ls
  induction ls with
  | nil => intro d t ht; simp [parseLinesFrom] at ht
  | cons l rest ih =>
    intro d t ht
    cases hp : parseLine d l with
    | some t0 =>
      rw [show parseLinesFrom d (l :: rest)
            = t0 :: parseLinesFrom (lineCursor d l) rest from by
          simp [parseLinesFrom, hp]] at ht
      rcases List.mem_cons.mp ht with h1 | h1
      · rw [h1]
        exact (parseLine_date_type d l t0 hp).2
      · exact ih (lineCursor d l) t h1
    | none =>
      rw [show parseLinesFrom d (l :: rest) = parseLinesFrom (lineCursor d l) rest from by
          simp [parseLinesFrom, hp]] at ht
      exact ih (lineCursor d l) t ht

/-! ### Claim theorems: parser dates (C6) and kind consistency (C2) -/

/-- C6: a transaction line before any successfully parsed date heading is
emitted with the zero/unset date (no crash, no today-default), and after
a successfully parsed heading `hl` with date `dt`, every transaction
emitted from the following heading-free lines carries `dt` (the most
recent preceding successfully parsed heading). -/
theorem parse_date_inheritance (pre post : List String) (hl : String) (dt : GDate) :
    ((∀ l ∈ pre, headingOf l = none) →
      ∀ t ∈ parseSimpleMarkdown pre, t.Date = dateZero) ∧
    (headingOf hl = some dt → (∀ l ∈ post, headingOf l = none) →
      parseSimpleMarkdown (pre ++ hl :: post)
        = parseSimpleMarkdown pre ++ parseLinesFrom dt post ∧
      ∀ t ∈ parseLinesFrom dt post, t.Date = dt) := by
  constructor
  · intro h
    exact parseLinesFrom_dates dateZero pre h
  · intro hh hnone
    refine ⟨?_, parseLinesFrom_dates dt post hnone⟩
    unfold parseSimpleMarkdown
    rw [show pre ++ hl :: post = (pre ++ [hl]) ++ post from by simp]
    rw [parseLinesFrom_append]
    congr 1
    · rw [parseLinesFrom_append]
      have h1 : parseLinesFrom (pre.foldl lineCursor dateZero) [hl] = [] := by
        simp [parseLinesFrom,
          (headingOf_parseLine (pre.foldl lineCursor dateZero) hl dt hh).1]
      rw [h1, List.append_nil]
    · rw [List.foldl_append]
      simp [List.foldl_cons,
        (headingOf_parseLine (pre.foldl lineCursor dateZero) hl dt hh).2]

/-- C6 witness: a ledger that starts with a transaction line, then a
heading `# 2024-01-15`, then another transaction: the first transaction
carries the zero date, the second carries `2024-01-15`. -/
theorem parse_date_inheritance_witness :
    parseSimpleMarkdown ["- 5 Coffee [Food]"]
      = [⟨dateZero, "expense", -5, "Coffee", ["Food"], none⟩] ∧
    (∀ t ∈ parseSimpleMarkdown ["- 5 Coffee [Food]"], t.Date = dateZero) ∧
    parseSimpleMarkdown ["- 5 Coffee [Food]", "# 2024-01-15", "+ 3 Tea"]
      = parseSimpleMarkdown ["- 5 Coffee [Food]"]
          ++ parseLinesFrom ⟨2024, 1, 15⟩ ["+ 3 Tea"] ∧
    (∀ t ∈ parseLinesFrom ⟨2024, 1, 15⟩ ["+ 3 Tea"], t.Date = ⟨2024, 1, 15⟩) := by
  have h := parse_date_inheritance ["- 5 Coffee [Food]"] ["+ 3 Tea"] "# 2024-01-15"
    ⟨2024, 1, 15⟩
  have hpre : ∀ l ∈ ["- 5 Coffee [Food]"], headingOf l = none := by
    intro l hlmem
    rw [List.mem_singleton] at hlmem
    subst hlmem
    decide
  have hpost : ∀ l ∈ ["+ 3 Tea"], headingOf l = none := by
    intro l hlmem
    rw [List.mem_singleton] at hlmem
    subst hlmem
    decide
  have h2 := h.2 (by decide) hpost
  exact ⟨by with_unfolding_all rfl, h.1 hpre, h2.1, h2.2⟩

/-- Transaction used in the C2 counterexample: an expense tagged `Food`
subjected to `--adjust Food=-2`, which flips the amount's sign. -/
def txnC2 : Transaction := ⟨dateZero, "expense", -10, "x", ["Food"], none⟩

/-- C2 counterexample: the projected copy of `txnC2` under
`--adjust Food=-2` has amount `-10 * (1 + (-2)) = 10 ≥ 0` but still the
stored kind `"expense"` — the projection copies the kind without
recomputing it, so the kind/sign invariant FAILS on the projected
sequence. -/
theorem stale_kind_after_projection_cex :
    (buildProjection [txnC2] "Food=-2").Projected.map (fun t => t.Amount) = [10] ∧
    (buildProjection [txnC2] "Food=-2").Projected.map (fun t => t.TType) = ["expense"] ∧
    ¬ ∀ t ∈ (buildProjection [txnC2] "Food=-2").Projected,
        (t.TType = "income" ↔ 0 ≤ t.Amount) := by
  have hA : (projectTxn (parseAdjustments "Food=-2") txnC2).Amount = 10 := by
    with_unfolding_all rfl
  have hT : (projectTxn (parseAdjustments "Food=-2") txnC2).TType = "expense" := by
    with_unfolding_all rfl
  refine ⟨by with_unfolding_all rfl, by with_unfolding_all rfl, ?_⟩
  intro hall
  have hmem : projectTxn (parseAdjustments "Food=-2") txnC2
      ∈ (buildProjection [txnC2] "Food=-2").Projected := by
    show _ ∈ [projectTxn (parseAdjustments "Food=-2") txnC2]
    exact List.mem_singleton.mpr rfl
  have hiff := hall _ hmem
  rw [hT, hA] at hiff
  have : ("expense" : String) = "income" := hiff.mpr (by norm_num)
  exact absurd this (by decide)

/-- C2 as amended: the kind/sign invariant holds for every transaction
produced by the parser; filtering only selects existing transactions (so
it preserves the invariant); but the projection step copies the stored
kind unchanged rather than recomputing it from the new amount (the
counterexample above shows it can therefore go stale when an adjustment
flips the sign). -/
theorem kind_consistency (d : GDate) (ls : List String) (cfg : FilterConfig)
    (ts : List Transaction) (m : List (String × ℚ)) (txn : Transaction) :
    (∀ t ∈ parseLinesFrom d ls, (t.TType = "income" ↔ 0 ≤ t.Amount)) ∧
    (∀ t ∈ applyFilters cfg ts, t ∈ ts) ∧
    (projectTxn m txn).TType = txn.TType := by
  refine ⟨parseLinesFrom_kind ls d, ?_, projectTxn_TType m txn⟩
  intro t ht
  exact List.mem_of_mem_filter ht

/-- C2 witness: the parsed line `- 2 A` yields a transaction with kind
`"expense"` and amount `-2`, satisfying the kind/sign equivalence. -/
theorem kind_consistency_witness :
    (⟨dateZero, "expense", -2, "A", [], none⟩ : Transaction)
      ∈ parseLinesFrom dateZero ["- 2 A"] ∧
    ((⟨dateZero, "expense", -2, "A", [], none⟩ : Transaction).TType = "income"
      ↔ 0 ≤ (⟨dateZero, "expense", -2, "A", [], none⟩ : Transaction).Amount) := by
  have hval : parseLinesFrom dateZero ["- 2 A"]
      = [⟨dateZero, "expense", -2, "A", [], none⟩] := by
    with_unfolding_all rfl
  have hmem : (⟨dateZero, "expense", -2, "A", [], none⟩ : Transaction)
      ∈ parseLinesFrom dateZero ["- 2 A"] := by
    rw [hval]
    exact List.mem_singleton.mpr rfl
  exact ⟨hmem,
    (kind_consistency dateZero ["- 2 A"] emptyConfig [] [] txnC2).1 _ hmem⟩

end Cashflow
